import Mathlib

/-!
Shallow embedding of the segmentation-and-resampling core of
`src/src-tauri/src/audio_processing.rs` (the `AudioProcessor` methods), together
with theorems settling the frozen claims about it.

Modelling conventions:
* `i16` samples are `Int` values; `u32`/`usize` quantities are `Nat` (casts that
  truncate or wrap in Rust are made explicit with `% 2^w` / `Int.toNat`).
* `f64` time and ratio arithmetic is modelled exactly over `ℚ`; the Rust
  `as usize` / `as i16` casts on `f64` are modelled as truncation toward zero
  with saturation, as in Rust.
* A Rust slice expression `content[a..b]`, which panics when `a > b` or
  `b > content.len()`, is modelled as an `Option`-valued operation
  (`none` = panic), and the functions containing such slices are
  `Option`/`Except`-valued accordingly.
-/

namespace Transcriber

/-- Little-endian byte list of a `u16` value (`u16::to_le_bytes`). -/
def u16le (x : Nat) : List Nat := [x % 256, x / 2 ^ 8 % 256]

/-- Little-endian byte list of a `u32` value (`u32::to_le_bytes`); bits above
the 32nd are dropped, so wrapping `u32` arithmetic needs no extra `%`. -/
def u32le (x : Nat) : List Nat :=
  [x % 256, x / 2 ^ 8 % 256, x / 2 ^ 16 % 256, x / 2 ^ 24 % 256]

/-- Two's-complement little-endian byte list of an `i16` sample
(`i16::to_le_bytes`). -/
def i16le (s : Int) : List Nat := u16le ((s % 65536).toNat)

/-- Little-endian value of a byte list (used to read header fields back). -/
def bytesToNatLE : List Nat → Nat
  | [] => 0
  | b :: rest => b % 256 + 256 * bytesToNatLE rest

/-- The standard base64 alphabet used by `base64::encode`. -/
def base64Alphabet : List Char :=
  "ABCDEFGHIJKLMNOPQRSTUVWXYZabcdefghijklmnopqrstuvwxyz0123456789+/".toList

/-- Symbol for a 6-bit group. -/
def base64Char (n : Nat) : Char := base64Alphabet.getD n 'A'

/-- `base64::encode` on a byte list: 3 input bytes map to 4 symbols, with
`=` padding for a final partial group. -/
def base64Encode : List Nat → List Char
  | [] => []
  | [b0] => [base64Char (b0 / 4), base64Char (b0 % 4 * 16), '=', '=']
  | [b0, b1] =>
      [base64Char (b0 / 4), base64Char (b0 % 4 * 16 + b1 / 16),
       base64Char (b1 % 16 * 4), '=']
  | b0 :: b1 :: b2 :: rest =>
      base64Char (b0 / 4) :: base64Char (b0 % 4 * 16 + b1 / 16) ::
      base64Char (b1 % 16 * 4 + b2 / 64) :: base64Char (b2 % 64) ::
      base64Encode rest

/-- `pub struct AudioSegment` (audio_processing.rs, lines 12-20). -/
structure AudioSegment where
  start_sample : Int
  end_sample : Int
  start_time_seconds : ℚ
  end_time_seconds : ℚ
  audio_data : List Int
  audio_base64 : String
  deriving DecidableEq, Repr

/-- `samples_to_wav_bytes` (lines 471-505): canonical 44-byte PCM WAV header
followed by the samples as little-endian 16-bit words.  `num_samples` is the
Rust `samples.len() as u32` cast; the `u32` products and sums wrap, which
`u32le` accounts for by dropping high bits. -/
def samples_to_wav_bytes (samples : List Int) (sample_rate : Nat) : List Nat :=
  let num_samples := samples.length % 2 ^ 32
  let byte_rate := sample_rate * 2
  let data_size := num_samples * 2
  let file_size := 36 + data_size
  [82, 73, 70, 70]                -- b"RIFF"
  ++ u32le file_size
  ++ [87, 65, 86, 69]             -- b"WAVE"
  ++ [102, 109, 116, 32]          -- b"fmt "
  ++ u32le 16                     -- chunk size
  ++ u16le 1                      -- PCM format
  ++ u16le 1                      -- mono
  ++ u32le sample_rate
  ++ u32le byte_rate
  ++ u16le 2                      -- block align
  ++ u16le 16                     -- bits per sample
  ++ [100, 97, 116, 97]           -- b"data"
  ++ u32le data_size
  ++ samples.flatMap i16le

/-- `samples_to_wav_base64` (lines 386-423): same container layout with the
sample rate fixed at 16000 Hz, then base64-encoded.  Here the Rust code casts
`(samples.len() * 2) as u32` (multiply in `usize`, then truncate). -/
def samples_to_wav_base64 (samples : List Int) : String :=
  let sample_rate := 16000
  let channels := 1
  let bits_per_sample := 16
  let file_size := 36 + samples.length * 2 % 2 ^ 32
  let byte_rate := sample_rate * channels * bits_per_sample / 8
  let block_align := channels * bits_per_sample / 8
  let data_size := samples.length * 2 % 2 ^ 32
  let wav_data :=
    [82, 73, 70, 70]
    ++ u32le file_size
    ++ [87, 65, 86, 69]
    ++ [102, 109, 116, 32]
    ++ u32le 16
    ++ u16le 1
    ++ u16le channels
    ++ u32le sample_rate
    ++ u32le byte_rate
    ++ u16le block_align
    ++ u16le bits_per_sample
    ++ [100, 97, 116, 97]
    ++ u32le data_size
    ++ samples.flatMap i16le
  String.mk (base64Encode wav_data)

example : (samples_to_wav_bytes [1, -2] 16000).length = 48 := by decide
example : bytesToNatLE (u32le 36) = 36 := by decide

/-- The chunk label consumed from the voice-activity classifier
(`voice_activity_detector::LabeledAudio`).  The segment-assembly loop never
reads the chunk payload, only the tag, so the payload is omitted here. -/
inductive LabeledAudio where
  | speech
  | nonSpeech
  deriving DecidableEq, Repr

/-- `content[startIdx..endIdx].to_vec()`: `some` slice when the bounds are
valid, `none` (panic) otherwise. -/
def sliceRange (content : List Int) (startIdx endIdx : Nat) : Option (List Int) :=
  if startIdx ≤ endIdx ∧ endIdx ≤ content.length then
    some ((content.drop startIdx).take (endIdx - startIdx))
  else none

/-- `x as usize` on an `i64` value: bit reinterpretation, i.e. value mod 2^64. -/
def i64ToUsize (x : Int) : Nat := (x % 2 ^ 64).toNat

/-- `q as usize` on an `f64` value: saturating truncation toward zero
(negative values become 0).  Saturation at `usize::MAX` is not modelled; every
use in the source is clamped by `.min(len)` with `len` far below `2^64`, or
bounded by the decoded input length. -/
def f64AsUsize (q : ℚ) : Nat := if q < 0 then 0 else (⌊q⌋).toNat

/-- Segment construction in the assembly loop (lines 254-261 and 281-288):
time bounds are sample indices divided by the fixed post-resample rate
16000 Hz, and the container is encoded eagerly (`samples_to_wav_base64`
always returns `Ok`, so `unwrap_or_else` never substitutes the empty string). -/
def mkAssembledSegment (speech_start speech_end : Nat) (segment_audio : List Int) :
    AudioSegment :=
  { start_sample := speech_start
    end_sample := speech_end
    start_time_seconds := (speech_start : ℚ) / 16000
    end_time_seconds := (speech_end : ℚ) / 16000
    audio_data := segment_audio
    audio_base64 := samples_to_wav_base64 segment_audio }

/-- The label-scan loop of `process_audio_file_with_progress`
(lines 221-290): walks the labels with the chunk index and the optional open
speech start, closing a segment at each `NonSpeech` label and, after the
stream ends, closing any still-open segment at `content.len()`. -/
def assembleLoop (content : List Int) (chunk_size : Nat) :
    List LabeledAudio → Nat → Option Nat → Option (List AudioSegment)
  | [], _, none => some []
  | [], _, some speech_start =>
      -- trailing open segment (lines 268-290)
      let speech_end := content.length
      let start_idx := min speech_start content.length
      let segment_audio := content.drop start_idx
      if segment_audio.isEmpty then some []
      else some [mkAssembledSegment speech_start speech_end segment_audio]
  | label :: rest, chunk_index, current_speech_start =>
      let chunk_start_sample := chunk_index * chunk_size
      match label, current_speech_start with
      | .speech, none =>
          assembleLoop content chunk_size rest (chunk_index + 1) (some chunk_start_sample)
      | .speech, some s =>
          assembleLoop content chunk_size rest (chunk_index + 1) (some s)
      | .nonSpeech, none =>
          assembleLoop content chunk_size rest (chunk_index + 1) none
      | .nonSpeech, some speech_start =>
          let speech_end := chunk_start_sample
          let start_idx := min speech_start content.length
          let end_idx := min speech_end content.length
          match sliceRange content start_idx end_idx with
          | none => none
          | some segment_audio =>
              match assembleLoop content chunk_size rest (chunk_index + 1) none with
              | none => none
              | some tail =>
                  if segment_audio.isEmpty then some tail
                  else some (mkAssembledSegment speech_start speech_end segment_audio :: tail)

/-- The segment assembler: the label scan started at chunk index 0 with no
open segment. -/
def assembleSegments (labels : List LabeledAudio) (content : List Int)
    (chunk_size : Nat) : Option (List AudioSegment) :=
  assembleLoop content chunk_size labels 0 none

/-- Sort key of `merge_close_segments_with_progress` (line 319):
`a.start_time_seconds.partial_cmp(&b.start_time_seconds)` used ascending. -/
def segLE (a b : AudioSegment) : Bool :=
  decide (a.start_time_seconds ≤ b.start_time_seconds)

/-- The merged-segment construction (lines 344-367): bounds come from
`current.start_sample` and `next.end_sample`, the audio is re-sliced from the
buffer over that full range (clamped at the buffer length), and the container
is re-encoded. -/
def mkMergedSegment (current next : AudioSegment) (content : List Int) :
    Option AudioSegment :=
  let merged_start := current.start_sample
  let merged_end := next.end_sample
  let start_idx := i64ToUsize (min merged_start (content.length : Int))
  let end_idx := min (i64ToUsize merged_end) content.length
  match sliceRange content start_idx end_idx with
  | none => none
  | some merged_audio =>
      some { start_sample := merged_start
             end_sample := merged_end
             start_time_seconds := current.start_time_seconds
             end_time_seconds := next.end_time_seconds
             audio_data := merged_audio
             audio_base64 := samples_to_wav_base64 merged_audio }

/-- The accumulator walk of `merge_close_segments_with_progress`
(lines 327-380): merge `next` into `current` when the gap is at most
`max_gap_seconds`, otherwise emit `current`; the final `current` is always
emitted. -/
def mergeLoop (content : List Int) (max_gap_seconds : ℚ) :
    AudioSegment → List AudioSegment → Option (List AudioSegment)
  | current, [] => some [current]
  | current, next :: rest =>
      let gap := next.start_time_seconds - current.end_time_seconds
      if gap ≤ max_gap_seconds then
        match mkMergedSegment current next content with
        | none => none
        | some m => mergeLoop content max_gap_seconds m rest
      else
        match mergeLoop content max_gap_seconds next rest with
        | none => none
        | some merged => some (current :: merged)

/-- `merge_close_segments_with_progress` (lines 310-383): empty input is
returned as-is; otherwise the segments are stably sorted by start time and
walked with the merge accumulator. -/
def merge_close_segments (segments : List AudioSegment) (content : List Int)
    (max_gap_seconds : ℚ) : Option (List AudioSegment) :=
  match segments.mergeSort segLE with
  | [] => some []
  | first :: rest => mergeLoop content max_gap_seconds first rest

/-- `extract_audio_chunk` (lines 425-429). -/
def extract_audio_chunk (content : List Int) (start_sample end_sample : Int) :
    Option (List Int) :=
  let start_idx := (max start_sample 0).toNat
  let end_idx := min (i64ToUsize end_sample) content.length
  sliceRange content start_idx end_idx

/-- The post-decode body of `extract_segment_from_file` (lines 508-533); the
decoder collaborator supplying `audio_samples` and `sample_rate` is external
(Symphonia), so the extraction logic is modelled on its output. -/
def extract_segment_from_samples (audio_samples : List Int) (sample_rate : Nat)
    (start_time_seconds end_time_seconds : ℚ) : Except String (List Int × Nat) :=
  let start_sample := f64AsUsize (start_time_seconds * sample_rate)
  let end_sample := f64AsUsize (end_time_seconds * sample_rate)
  let start_sample := min start_sample audio_samples.length
  let end_sample := min end_sample audio_samples.length
  if end_sample ≤ start_sample then
    Except.error "Invalid time range: start time is after end time"
  else
    Except.ok ((audio_samples.drop start_sample).take (end_sample - start_sample),
               sample_rate)

/-- `as i16` on an `f64` value: truncation toward zero with saturation into
the `i16` range. -/
def f64AsI16 (q : ℚ) : Int :=
  let t : Int := if q < 0 then ⌈q⌉ else ⌊q⌋
  min 32767 (max (-32768) t)

/-- The index-driven loop of `simple_resample` (lines 442-460), with the
remaining iteration count as the structural argument: `i` runs from 0 up to
`output_len`, stopping early (without padding) once the source index reaches
the input length. -/
def resampleLoop (input : List Int) (ratio : ℚ) : Nat → Nat → List Int
  | _, 0 => []
  | i, n + 1 =>
      let src_pos := (i : ℚ) * ratio
      let src_index := f64AsUsize src_pos
      if input.length ≤ src_index then []
      else if src_index + 1 < input.length then
        let frac := src_pos - (src_index : ℚ)
        let sample1 : ℚ := (input.getD src_index 0 : Int)
        let sample2 : ℚ := (input.getD (src_index + 1) 0 : Int)
        let interpolated := sample1 + (sample2 - sample1) * frac
        f64AsI16 interpolated :: resampleLoop input ratio (i + 1) n
      else
        input.getD src_index 0 :: resampleLoop input ratio (i + 1) n

/-- `simple_resample` (lines 433-463).  The `f64` ratio and length arithmetic
is modelled exactly over `ℚ`; in the pipeline both rates are positive. -/
def simple_resample (input : List Int) (from_rate to_rate : Nat) : List Int :=
  if from_rate = to_rate then input
  else
    let ratio : ℚ := (from_rate : ℚ) / (to_rate : ℚ)
    let output_len := f64AsUsize ((input.length : ℚ) / ratio)
    resampleLoop input ratio 0 output_len

/-- ASCII lowercasing of one character; `str::to_lowercase` agrees with this
on ASCII, which covers every extension the format gate compares against. -/
def charToLower (c : Char) : Char :=
  if 'A' ≤ c ∧ c ≤ 'Z' then Char.ofNat (c.toNat + 32) else c

/-- `str::to_lowercase` restricted to the ASCII mapping. -/
def strToLower (s : String) : String := String.mk (s.toList.map charToLower)

/-- The characters of a file name after its last `.`. -/
def afterLastDot (cs : List Char) : List Char :=
  (cs.reverse.takeWhile (fun c => c ≠ '.')).reverse

/-- `std::path::Path::file_name` on a Unix-style path string: the last
component, skipping empty and `.` components, and yielding nothing for a
trailing `..`. -/
def pathFileName (path : String) : Option String :=
  let comps := (path.splitOn "/").filter (fun c => c ≠ "" ∧ c ≠ ".")
  match comps.getLast? with
  | none => none
  | some last => if last = ".." then none else some last

/-- `std::path::Path::extension`: the portion of the file name after its last
`.`, unless there is no `.` beyond the first character (so names with no dot,
and dotfiles such as `.gitignore`, have no extension). -/
def pathExtension (path : String) : Option String :=
  match pathFileName path with
  | none => none
  | some name =>
      match name.toList with
      | [] => none
      | _ :: rest =>
          if rest.contains '.' then some (String.mk (afterLastDot rest)) else none

/-- The format gate of `process_audio_file_with_progress` (lines 153-171):
lowercase the extension (empty when missing) and accept exactly the six
supported formats, otherwise reject with a message naming the extension and
the supported list. -/
def formatGate (file_path : String) : Except String Unit :=
  let extension := strToLower ((pathExtension file_path).getD "")
  if extension = "wav" ∨ extension = "mp3" ∨ extension = "m4a" ∨
     extension = "aac" ∨ extension = "flac" ∨ extension = "ogg" then
    Except.ok ()
  else
    Except.error ("Unsupported audio format: '" ++ extension ++
      "'. Supported formats: WAV, MP3, M4A, AAC, FLAC, OGG")

/-- The head of the pipeline, parameterized by the decoder collaborator: the
format gate runs first, and decode is reached only when the gate accepts
(lines 153-175). -/
def processHead (decode : String → Except String (List Int × Nat))
    (file_path : String) : Except String (List Int × Nat) :=
  match formatGate file_path with
  | Except.error e => Except.error e
  | Except.ok _ => decode file_path

/-! ## Helper lemmas -/

lemma bytesToNatLE_u32le (x : Nat) (h : x < 2 ^ 32) : bytesToNatLE (u32le x) = x := by
  simp only [u32le, bytesToNatLE]
  omega

lemma bytesToNatLE_u16le (x : Nat) (h : x < 2 ^ 16) : bytesToNatLE (u16le x) = x := by
  simp only [u16le, bytesToNatLE]
  omega

lemma length_flatMap_i16le (l : List Int) : (l.flatMap i16le).length = 2 * l.length := by
  induction l with
  | nil => simp
  | cons a t ih =>
      simp only [List.flatMap_cons, List.length_append, ih, i16le, u16le,
        List.length_cons, List.length_nil]
      ring

/-! ## C4: container encoder layout and round-trip -/

/-- Header block reads of the canonical container layout. -/
lemma wav_header_reads (F R B D : Nat) (tail : List Nat) :
    List.take 4 (List.drop 4 ([82, 73, 70, 70] ++ u32le F ++ [87, 65, 86, 69] ++
      [102, 109, 116, 32] ++ u32le 16 ++ u16le 1 ++ u16le 1 ++ u32le R ++ u32le B ++
      u16le 2 ++ u16le 16 ++ [100, 97, 116, 97] ++ u32le D ++ tail)) = u32le F ∧
    List.take 2 (List.drop 22 ([82, 73, 70, 70] ++ u32le F ++ [87, 65, 86, 69] ++
      [102, 109, 116, 32] ++ u32le 16 ++ u16le 1 ++ u16le 1 ++ u32le R ++ u32le B ++
      u16le 2 ++ u16le 16 ++ [100, 97, 116, 97] ++ u32le D ++ tail)) = u16le 1 ∧
    List.take 4 (List.drop 24 ([82, 73, 70, 70] ++ u32le F ++ [87, 65, 86, 69] ++
      [102, 109, 116, 32] ++ u32le 16 ++ u16le 1 ++ u16le 1 ++ u32le R ++ u32le B ++
      u16le 2 ++ u16le 16 ++ [100, 97, 116, 97] ++ u32le D ++ tail)) = u32le R ∧
    List.take 2 (List.drop 34 ([82, 73, 70, 70] ++ u32le F ++ [87, 65, 86, 69] ++
      [102, 109, 116, 32] ++ u32le 16 ++ u16le 1 ++ u16le 1 ++ u32le R ++ u32le B ++
      u16le 2 ++ u16le 16 ++ [100, 97, 116, 97] ++ u32le D ++ tail)) = u16le 16 ∧
    List.take 4 (List.drop 40 ([82, 73, 70, 70] ++ u32le F ++ [87, 65, 86, 69] ++
      [102, 109, 116, 32] ++ u32le 16 ++ u16le 1 ++ u16le 1 ++ u32le R ++ u32le B ++
      u16le 2 ++ u16le 16 ++ [100, 97, 116, 97] ++ u32le D ++ tail)) = u32le D := by
  refine ⟨?_, ?_, ?_, ?_, ?_⟩ <;> simp [u32le, u16le]

theorem wav_encode_spec (samples : List Int) (sample_rate : Nat)
    (hn : 36 + 2 * samples.length < 2 ^ 32) (hr : sample_rate * 2 < 2 ^ 32) :
    samples_to_wav_bytes samples sample_rate =
      [82, 73, 70, 70] ++ u32le (36 + 2 * samples.length) ++ [87, 65, 86, 69] ++
      [102, 109, 116, 32] ++ u32le 16 ++ u16le 1 ++ u16le 1 ++
      u32le sample_rate ++ u32le (sample_rate * 2) ++ u16le 2 ++ u16le 16 ++
      [100, 97, 116, 97] ++ u32le (2 * samples.length) ++ samples.flatMap i16le ∧
    (samples_to_wav_bytes samples sample_rate).length = 44 + 2 * samples.length ∧
    bytesToNatLE (((samples_to_wav_bytes samples sample_rate).drop 4).take 4) =
      36 + 2 * samples.length ∧
    bytesToNatLE (((samples_to_wav_bytes samples sample_rate).drop 22).take 2) = 1 ∧
    bytesToNatLE (((samples_to_wav_bytes samples sample_rate).drop 24).take 4) =
      sample_rate ∧
    bytesToNatLE (((samples_to_wav_bytes samples sample_rate).drop 34).take 2) = 16 ∧
    bytesToNatLE (((samples_to_wav_bytes samples sample_rate).drop 40).take 4) =
      2 * samples.length := by
  have hlen : samples.length % 2 ^ 32 = samples.length := Nat.mod_eq_of_lt (by omega)
  have hlay : samples_to_wav_bytes samples sample_rate =
      [82, 73, 70, 70] ++ u32le (36 + 2 * samples.length) ++ [87, 65, 86, 69] ++
      [102, 109, 116, 32] ++ u32le 16 ++ u16le 1 ++ u16le 1 ++
      u32le sample_rate ++ u32le (sample_rate * 2) ++ u16le 2 ++ u16le 16 ++
      [100, 97, 116, 97] ++ u32le (2 * samples.length) ++ samples.flatMap i16le := by
    simp only [samples_to_wav_bytes, hlen, Nat.mul_comm samples.length 2]
  refine ⟨hlay, ?_, ?_, ?_, ?_, ?_, ?_⟩
  · rw [hlay]
    simp only [List.length_append, length_flatMap_i16le, u32le, u16le,
      List.length_cons, List.length_nil]
  · rw [hlay, (wav_header_reads _ _ _ _ _).1, bytesToNatLE_u32le _ hn]
  · rw [hlay, (wav_header_reads _ _ _ _ _).2.1, bytesToNatLE_u16le 1 (by decide)]
  · rw [hlay, (wav_header_reads _ _ _ _ _).2.2.1, bytesToNatLE_u32le _ (by omega)]
  · rw [hlay, (wav_header_reads _ _ _ _ _).2.2.2.1, bytesToNatLE_u16le 16 (by decide)]
  · rw [hlay, (wav_header_reads _ _ _ _ _).2.2.2.2, bytesToNatLE_u32le _ (by omega)]

/-- C4 witness: the layout theorem applied to the concrete input
`samples = [1, -2]`, `sample_rate = 16000`. -/
theorem wav_encode_spec_witness :
    (samples_to_wav_bytes [1, -2] 16000).length = 44 + 2 * ([1, -2] : List Int).length ∧
    bytesToNatLE (((samples_to_wav_bytes [1, -2] 16000).drop 24).take 4) = 16000 :=
  ⟨(wav_encode_spec [1, -2] 16000 (by norm_num) (by norm_num)).2.1,
   (wav_encode_spec [1, -2] 16000 (by norm_num) (by norm_num)).2.2.2.2.1⟩

/-! ## C10: extract_audio_chunk bounds behavior -/

/-- C10: under the precondition `max(start_sample, 0) <= min(end_sample as
usize, len)`, `extract_audio_chunk` returns exactly the clamped subrange and
the slice cannot fail; but the function does not guard inverted ranges: with
`content = []`, `start_sample = 1`, `end_sample = 0` the slice bounds are
inverted and the slice operation is out of bounds (modelled as `none`). -/
theorem extract_audio_chunk_spec (content : List Int) (start_sample end_sample : Int)
    (hpre : (max start_sample 0).toNat ≤ min (i64ToUsize end_sample) content.length) :
    extract_audio_chunk content start_sample end_sample =
      some ((content.drop (max start_sample 0).toNat).take
        (min (i64ToUsize end_sample) content.length - (max start_sample 0).toNat)) ∧
    extract_audio_chunk ([] : List Int) 1 0 = none := by
  constructor
  · have h2 : min (i64ToUsize end_sample) content.length ≤ content.length :=
      min_le_right _ _
    simp [extract_audio_chunk, sliceRange, hpre, h2]
  · decide

/-- C10 witness: the chunk extraction theorem applied at
`content = [5, 6, 7]`, `start_sample = -1`, `end_sample = 2`. -/
theorem extract_audio_chunk_spec_witness :
    extract_audio_chunk [5, 6, 7] (-1) 2 =
      some ((([5, 6, 7] : List Int).drop (max (-1 : Int) 0).toNat).take
        (min (i64ToUsize 2) ([5, 6, 7] : List Int).length - (max (-1 : Int) 0).toNat)) ∧
    extract_audio_chunk ([] : List Int) 1 0 = none :=
  extract_audio_chunk_spec [5, 6, 7] (-1) 2 (by decide)

/-! ## C3: time-range segment extraction error condition -/

/-- C3 counterexample: a strictly increasing time range
(`start = 0 < end = 1/32000` seconds at 16 kHz) that is nevertheless rejected
as an invalid range, because both bounds truncate to sample index 0.  This
refutes the claim that the invalid-range error occurs only when
`start_time_seconds >= end_time_seconds`. -/
theorem extract_segment_invalid_range_cex :
    (0 : ℚ) < 1 / 32000 ∧
    extract_segment_from_samples [0] 16000 0 (1 / 32000) =
      Except.error "Invalid time range: start time is after end time" := by
  constructor
  · norm_num
  · norm_num [extract_segment_from_samples, f64AsUsize]

lemma f64AsUsize_mono {p q : ℚ} (h : p ≤ q) : f64AsUsize p ≤ f64AsUsize q := by
  unfold f64AsUsize
  rcases lt_or_le p 0 with h1 | h1
  · rw [if_pos h1]
    exact Nat.zero_le _
  · rw [if_neg (not_lt.mpr h1), if_neg (not_lt.mpr (le_trans h1 h))]
    exact Int.toNat_le_toNat (Int.floor_le_floor h)

/-- C3 amended: the extraction errors exactly when the computed sample range
is empty — `min(trunc(end*rate), len) <= min(trunc(start*rate), len)`.
`start >= end` always implies this (so every claimed error case does error),
but sub-sample ranges and ranges clamped past the buffer end also error. -/
theorem extract_segment_error_iff (audio_samples : List Int) (sample_rate : Nat)
    (st et : ℚ) :
    (extract_segment_from_samples audio_samples sample_rate st et =
        Except.error "Invalid time range: start time is after end time" ↔
      min (f64AsUsize (et * sample_rate)) audio_samples.length ≤
        min (f64AsUsize (st * sample_rate)) audio_samples.length) ∧
    (et ≤ st → extract_segment_from_samples audio_samples sample_rate st et =
        Except.error "Invalid time range: start time is after end time") := by
  have hmain : extract_segment_from_samples audio_samples sample_rate st et =
      Except.error "Invalid time range: start time is after end time" ↔
      min (f64AsUsize (et * sample_rate)) audio_samples.length ≤
        min (f64AsUsize (st * sample_rate)) audio_samples.length := by
    by_cases h : min (f64AsUsize (et * (sample_rate : ℚ))) audio_samples.length ≤
        min (f64AsUsize (st * (sample_rate : ℚ))) audio_samples.length
    · simp [extract_segment_from_samples, h]
    · simp [extract_segment_from_samples, h]
  refine ⟨hmain, fun hle => hmain.mpr ?_⟩
  have hmul : et * (sample_rate : ℚ) ≤ st * (sample_rate : ℚ) :=
    mul_le_mul_of_nonneg_right hle (by positivity)
  exact min_le_min (f64AsUsize_mono hmul) le_rfl

/-- C3 witness: the amended theorem applied at `audio_samples = [0, 1]`,
`sample_rate = 1`, `start = 5`, `end = 2`. -/
theorem extract_segment_error_iff_witness :
    extract_segment_from_samples [0, 1] 1 5 2 =
      Except.error "Invalid time range: start time is after end time" :=
  (extract_segment_error_iff [0, 1] 1 5 2).2 (by norm_num)

/-! ## C9: the format gate -/

/-- C9: the pipeline accepts exactly the extensions wav, mp3, m4a, aac, flac,
ogg compared case-insensitively (via lowercasing; a missing extension behaves
as the empty string, which is rejected); on any other extension the pipeline
returns — for every decoder collaborator, hence before any decode is
attempted — an error naming the offending extension and the supported list. -/
theorem format_gate_spec (file_path : String) :
    (formatGate file_path = Except.ok () ↔
      strToLower ((pathExtension file_path).getD "") = "wav" ∨
      strToLower ((pathExtension file_path).getD "") = "mp3" ∨
      strToLower ((pathExtension file_path).getD "") = "m4a" ∨
      strToLower ((pathExtension file_path).getD "") = "aac" ∨
      strToLower ((pathExtension file_path).getD "") = "flac" ∨
      strToLower ((pathExtension file_path).getD "") = "ogg") ∧
    (formatGate file_path = Except.ok () ∨
      ∀ decode, processHead decode file_path =
        Except.error ("Unsupported audio format: '" ++
          strToLower ((pathExtension file_path).getD "") ++
          "'. Supported formats: WAV, MP3, M4A, AAC, FLAC, OGG")) := by
  by_cases h : strToLower ((pathExtension file_path).getD "") = "wav" ∨
      strToLower ((pathExtension file_path).getD "") = "mp3" ∨
      strToLower ((pathExtension file_path).getD "") = "m4a" ∨
      strToLower ((pathExtension file_path).getD "") = "aac" ∨
      strToLower ((pathExtension file_path).getD "") = "flac" ∨
      strToLower ((pathExtension file_path).getD "") = "ogg"
  · have hok : formatGate file_path = Except.ok () := by
      simp only [formatGate]
      rw [if_pos h]
    exact ⟨⟨fun _ => h, fun _ => hok⟩, Or.inl hok⟩
  · have herr : formatGate file_path =
        Except.error ("Unsupported audio format: '" ++
          strToLower ((pathExtension file_path).getD "") ++
          "'. Supported formats: WAV, MP3, M4A, AAC, FLAC, OGG") := by
      simp only [formatGate]
      rw [if_neg h]
    refine ⟨⟨fun hok => ?_, fun hx => absurd hx h⟩, Or.inr fun decode => ?_⟩
    · rw [herr] at hok
      exact absurd hok (by simp)
    · simp only [processHead]
      rw [herr]

/-! ## C7: resampler output length -/

lemma resampleLoop_length_le (input : List Int) (ratio : ℚ) :
    ∀ (fuel i : Nat), (resampleLoop input ratio i fuel).length ≤ fuel := by
  intro fuel
  induction fuel with
  | zero => intro i; simp [resampleLoop]
  | succ n ih =>
      intro i
      simp only [resampleLoop]
      split_ifs with h1 h2
      · simp
      · simpa using ih (i + 1)
      · simpa using ih (i + 1)

lemma resampleLoop_length_eq (input : List Int) (ratio : ℚ) :
    ∀ (fuel i : Nat),
      (∀ k, i ≤ k → k < i + fuel → f64AsUsize ((k : ℚ) * ratio) < input.length) →
      (resampleLoop input ratio i fuel).length = fuel := by
  intro fuel
  induction fuel with
  | zero => intro i _; simp [resampleLoop]
  | succ n ih =>
      intro i h
      have hi : f64AsUsize ((i : ℚ) * ratio) < input.length := h i le_rfl (by omega)
      simp only [resampleLoop]
      rw [if_neg (not_le.mpr hi)]
      split_ifs with h2
      · simpa using ih (i + 1) (fun k hk1 hk2 => h k (by omega) (by omega))
      · simpa using ih (i + 1) (fun k hk1 hk2 => h k (by omega) (by omega))

/-- C7: for positive rates the length of `simple_resample x from to` is within
1 of `floor(len(x) * to / from)` (in this exact-arithmetic model they are in
fact equal), and the early-stop rule can only shorten the output: the loop
never produces more than its planned iteration count. -/
theorem resample_length_spec (x : List Int) (from_rate to_rate i n : Nat)
    (hf : 0 < from_rate) (ht : 0 < to_rate) :
    Nat.dist (simple_resample x from_rate to_rate).length
      (x.length * to_rate / from_rate) ≤ 1 ∧
    (resampleLoop x ((from_rate : ℚ) / (to_rate : ℚ)) i n).length ≤ n := by
  refine ⟨?_, resampleLoop_length_le x _ n i⟩
  by_cases heq : from_rate = to_rate
  · subst heq
    rw [simple_resample, if_pos rfl, Nat.mul_div_cancel _ hf]
    simp [Nat.dist_self]
  · have hfq : (0 : ℚ) < (from_rate : ℚ) := by exact_mod_cast hf
    have htq : (0 : ℚ) < (to_rate : ℚ) := by exact_mod_cast ht
    have houtlen : f64AsUsize ((x.length : ℚ) / ((from_rate : ℚ) / (to_rate : ℚ))) =
        x.length * to_rate / from_rate := by
      rw [div_div_eq_mul_div]
      have hnn : (0 : ℚ) ≤ (x.length : ℚ) * (to_rate : ℚ) / (from_rate : ℚ) := by positivity
      rw [f64AsUsize, if_neg (not_lt.mpr hnn), Int.floor_toNat]
      have hcast : (x.length : ℚ) * (to_rate : ℚ) = ((x.length * to_rate : ℕ) : ℚ) := by
        push_cast
        ring
      rw [hcast, Nat.floor_div_nat, Nat.floor_natCast]
    have hloopform : simple_resample x from_rate to_rate =
        resampleLoop x ((from_rate : ℚ) / (to_rate : ℚ)) 0
          (f64AsUsize ((x.length : ℚ) / ((from_rate : ℚ) / (to_rate : ℚ)))) := by
      rw [simple_resample, if_neg heq]
    have hlen : (simple_resample x from_rate to_rate).length =
        x.length * to_rate / from_rate := by
      rw [hloopform, houtlen]
      apply resampleLoop_length_eq
      intro k _ hk
      have hkq : (k : ℚ) < (x.length : ℚ) * (to_rate : ℚ) / (from_rate : ℚ) := by
        rw [Nat.zero_add] at hk
        have h1 : k + 1 ≤ x.length * to_rate / from_rate := hk
        have h2 : (k + 1) * from_rate ≤ x.length * to_rate :=
          (Nat.le_div_iff_mul_le hf).mp h1
        have h2q : ((k : ℚ) + 1) * (from_rate : ℚ) ≤ (x.length : ℚ) * (to_rate : ℚ) := by
          exact_mod_cast h2
        rw [lt_div_iff₀ hfq]
        calc (k : ℚ) * (from_rate : ℚ) < ((k : ℚ) + 1) * (from_rate : ℚ) := by
              apply mul_lt_mul_of_pos_right _ hfq
              linarith
          _ ≤ (x.length : ℚ) * (to_rate : ℚ) := h2q
      have hsrc : (k : ℚ) * ((from_rate : ℚ) / (to_rate : ℚ)) < (x.length : ℚ) := by
        rw [← mul_div_assoc, div_lt_iff₀ htq]
        exact (lt_div_iff₀ hfq).mp hkq
      have hfl : ⌊(k : ℚ) * ((from_rate : ℚ) / (to_rate : ℚ))⌋ < (x.length : ℤ) :=
        Int.floor_lt.mpr (by exact_mod_cast hsrc)
      have hnn : (0 : ℚ) ≤ (k : ℚ) * ((from_rate : ℚ) / (to_rate : ℚ)) := by positivity
      rw [f64AsUsize, if_neg (not_lt.mpr hnn)]
      have h0 : (0 : ℤ) ≤ ⌊(k : ℚ) * ((from_rate : ℚ) / (to_rate : ℚ))⌋ :=
        Int.floor_nonneg.mpr hnn
      omega
    rw [hlen]
    simp [Nat.dist_self]

/-- C7 witness: concrete scenario 4 of the spec, `resample([0,100,200,300],
from=2, to=1)`, plus a concrete loop-length bound. -/
theorem resample_length_spec_witness :
    Nat.dist (simple_resample [0, 100, 200, 300] 2 1).length
      (([0, 100, 200, 300] : List Int).length * 1 / 2) ≤ 1 ∧
    (resampleLoop [0, 100, 200, 300] ((2 : ℚ) / (1 : ℚ)) 0 5).length ≤ 5 :=
  resample_length_spec [0, 100, 200, 300] 2 1 0 5 (by norm_num) (by norm_num)

/-! ## C1: the trailing unlabeled buffer tail -/

/-- C1 counterexample: with labels `[Speech]`, `chunk_size = 1` and a 3-sample
buffer, the label stream covers only sample index 0 (`1 * 1 = 1 < 3`), yet the
assembler emits the segment `[0, 3)`, whose end extends to the buffer length
and therefore includes samples at indices `1, 2 >= chunk_count * chunk_size`.
This refutes the claim that no emitted segment reaches at or beyond
`chunk_count * chunk_size`. -/
theorem assembler_tail_cex :
    1 * 1 < ([1, 1, 1] : List Int).length ∧
    (assembleSegments [LabeledAudio.speech] [1, 1, 1] 1).map
      (List.map (fun s => (s.start_sample, s.end_sample))) = some [(0, 3)] ∧
    ¬ ((3 : Int) ≤ 1 * 1) := by
  refine ⟨by norm_num, ?_, by norm_num⟩
  rfl

lemma assembleLoop_end_bound (content : List Int) (chunk_size : Nat) :
    ∀ (labels : List LabeledAudio) (chunk_index : Nat) (cur : Option Nat)
      (segs : List AudioSegment),
      assembleLoop content chunk_size labels chunk_index cur = some segs →
      ∀ seg ∈ segs,
        seg.end_sample ≤ (((chunk_index + labels.length) * chunk_size : Nat) : Int) ∨
        seg.end_sample = (content.length : Int) := by
  intro labels
  induction labels with
  | nil =>
      intro k cur segs h seg hseg
      cases cur with
      | none =>
          simp only [assembleLoop, Option.some_inj] at h
          subst h
          simp at hseg
      | some s =>
          simp only [assembleLoop] at h
          split_ifs at h with hemp
          · rw [Option.some_inj] at h
            subst h
            simp at hseg
          · rw [Option.some_inj] at h
            subst h
            rw [List.mem_singleton] at hseg
            subst hseg
            exact Or.inr rfl
  | cons l rest ih =>
      intro k cur segs h seg hseg
      cases l with
      | speech =>
          cases cur with
          | none =>
              simp only [assembleLoop] at h
              have := ih (k + 1) (some (k * chunk_size)) segs h seg hseg
              refine this.imp (fun hle => le_trans hle ?_) id
              have : (k + 1 + rest.length) * chunk_size =
                  (k + (rest.length + 1)) * chunk_size := by ring
              rw [this]
              simp [List.length_cons]
          | some s =>
              simp only [assembleLoop] at h
              have := ih (k + 1) (some s) segs h seg hseg
              refine this.imp (fun hle => le_trans hle ?_) id
              have : (k + 1 + rest.length) * chunk_size =
                  (k + (rest.length + 1)) * chunk_size := by ring
              rw [this]
              simp [List.length_cons]
      | nonSpeech =>
          cases cur with
          | none =>
              simp only [assembleLoop] at h
              have := ih (k + 1) none segs h seg hseg
              refine this.imp (fun hle => le_trans hle ?_) id
              have : (k + 1 + rest.length) * chunk_size =
                  (k + (rest.length + 1)) * chunk_size := by ring
              rw [this]
              simp [List.length_cons]
          | some s =>
              simp only [assembleLoop] at h
              cases hsl : sliceRange content (min s content.length)
                  (min (k * chunk_size) content.length) with
              | none => rw [hsl] at h; simp at h
              | some segment_audio =>
                  rw [hsl] at h
                  cases htl : assembleLoop content chunk_size rest (k + 1) none with
                  | none => rw [htl] at h; simp at h
                  | some tail =>
                      rw [htl] at h
                      dsimp only at h
                      have htail := ih (k + 1) none tail htl
                      have hbound : ∀ x ∈ tail,
                          x.end_sample ≤ (((k + (rest.length + 1)) * chunk_size : Nat) : Int) ∨
                          x.end_sample = (content.length : Int) := by
                        intro x hx
                        refine (htail x hx).imp (fun hle => le_trans hle ?_) id
                        have : (k + 1 + rest.length) * chunk_size =
                            (k + (rest.length + 1)) * chunk_size := by ring
                        rw [this]
                      split_ifs at h with hemp
                      · rw [Option.some_inj] at h
                        subst h
                        simpa using hbound seg hseg
                      · rw [Option.some_inj] at h
                        subst h
                        rw [List.mem_cons] at hseg
                        rcases hseg with hseg | hseg
                        · subst hseg
                          refine Or.inl ?_
                          show ((k * chunk_size : Nat) : Int) ≤ _
                          have : k * chunk_size ≤ (k + (rest.length + 1)) * chunk_size :=
                            Nat.mul_le_mul_right _ (by omega)
                          exact_mod_cast this
                        · simpa using hbound seg hseg

/-- C1 amended: a segment closed by a `NonSpeech` label ends at a chunk start
and so never reaches past `chunk_count * chunk_size`; but a segment still open
when the label stream ends is closed at `end sample = buffer length`, so when
the final label is `Speech` and the stream covers fewer samples than the
buffer, that one segment does include the trailing unlabeled buffer tail.
Formally: every emitted segment either ends at or before
`chunk_count * chunk_size` or ends exactly at the buffer length. -/
theorem assembler_segment_end_bound (labels : List LabeledAudio) (content : List Int)
    (chunk_size : Nat) (segs : List AudioSegment)
    (h : assembleSegments labels content chunk_size = some segs) :
    ∀ seg ∈ segs,
      seg.end_sample ≤ ((labels.length * chunk_size : Nat) : Int) ∨
      seg.end_sample = (content.length : Int) := by
  have := assembleLoop_end_bound content chunk_size labels 0 none segs h
  simpa using this

/-- C1 amended witness: the bound applied to the counterexample input, whose
single emitted segment takes the buffer-length disjunct. -/
theorem assembler_segment_end_bound_witness :
    (mkAssembledSegment 0 3 [1, 1, 1]).end_sample ≤
      ((([LabeledAudio.speech].length * 1 : Nat)) : Int) ∨
    (mkAssembledSegment 0 3 [1, 1, 1]).end_sample = ((([1, 1, 1] : List Int).length : Nat) : Int) :=
  assembler_segment_end_bound [LabeledAudio.speech] [1, 1, 1] 1
    [mkAssembledSegment 0 3 [1, 1, 1]] rfl (mkAssembledSegment 0 3 [1, 1, 1]) (by simp)

/-! ## Merger helper lemmas -/

lemma segLE_trans : ∀ a b c : AudioSegment, segLE a b → segLE b c → segLE a c := by
  intro a b c hab hbc
  simp only [segLE, decide_eq_true_eq] at hab hbc ⊢
  exact le_trans hab hbc

lemma segLE_total : ∀ a b : AudioSegment, segLE a b || segLE b a := by
  intro a b
  simp only [segLE]
  rcases le_total a.start_time_seconds b.start_time_seconds with h | h
  · simp [h]
  · simp [h]

lemma mkMergedSegment_fields {current next : AudioSegment} {content : List Int}
    {m : AudioSegment} (h : mkMergedSegment current next content = some m) :
    m.start_sample = current.start_sample ∧ m.end_sample = next.end_sample ∧
    m.start_time_seconds = current.start_time_seconds ∧
    m.end_time_seconds = next.end_time_seconds := by
  simp only [mkMergedSegment] at h
  cases hs : sliceRange content
      (i64ToUsize (min current.start_sample (content.length : Int)))
      (min (i64ToUsize next.end_sample) content.length) with
  | none => rw [hs] at h; simp at h
  | some audio =>
      rw [hs] at h
      dsimp only at h
      rw [Option.some_inj] at h
      subst h
      exact ⟨rfl, rfl, rfl, rfl⟩

/-- The accumulator walk invariant on a successful run: the output is
non-empty with the accumulator's start time first, the output start times are
a sublist of the input start times, and any two adjacent output segments have
a gap strictly above the threshold. -/
lemma mergeLoop_spec (content : List Int) (g : ℚ) :
    ∀ (rest : List AudioSegment) (current : AudioSegment) (out : List AudioSegment),
      mergeLoop content g current rest = some out →
      (∃ first tail, out = first :: tail ∧
        first.start_time_seconds = current.start_time_seconds) ∧
      List.Sublist (out.map (fun s => s.start_time_seconds))
        ((current :: rest).map (fun s => s.start_time_seconds)) ∧
      List.Chain' (fun x y => g < y.start_time_seconds - x.end_time_seconds) out := by
  intro rest
  induction rest with
  | nil =>
      intro current out h
      simp only [mergeLoop, Option.some_inj] at h
      subst h
      exact ⟨⟨current, [], rfl, rfl⟩, by simp, by simp⟩
  | cons next rest ih =>
      intro current out h
      simp only [mergeLoop] at h
      split_ifs at h with hgap
      · cases hm : mkMergedSegment current next content with
        | none => rw [hm] at h; simp at h
        | some m =>
            rw [hm] at h
            dsimp only at h
            have hmst : m.start_time_seconds = current.start_time_seconds :=
              (mkMergedSegment_fields hm).2.2.1
            obtain ⟨⟨first, tail, hout, hfst⟩, hsub, hchain⟩ := ih m out h
            refine ⟨⟨first, tail, hout, by rw [hfst, hmst]⟩, ?_, hchain⟩
            have h1 : List.Sublist (out.map (fun s => s.start_time_seconds))
                (current.start_time_seconds ::
                  rest.map (fun s => s.start_time_seconds)) := by
              simpa [hmst] using hsub
            refine h1.trans ?_
            exact List.Sublist.cons₂ _ (List.sublist_cons_self _ _)
      · cases hm : mergeLoop content g next rest with
        | none => rw [hm] at h; simp at h
        | some merged =>
            rw [hm] at h
            dsimp only at h
            rw [Option.some_inj] at h
            subst h
            obtain ⟨⟨first, tail, hout, hfst⟩, hsub, hchain⟩ := ih next merged hm
            refine ⟨⟨current, merged, rfl, rfl⟩, ?_, ?_⟩
            · simpa using List.Sublist.cons₂ current.start_time_seconds hsub
            · rw [hout]
              refine List.Chain'.cons ?_ (hout ▸ hchain)
              rw [hfst]
              exact lt_of_not_le (fun hc => hgap (by linarith))
    
/-- If every adjacent gap is strictly above the threshold, the walk merges
nothing and returns its input unchanged. -/
lemma mergeLoop_of_gaps (content : List Int) (g : ℚ) :
    ∀ (rest : List AudioSegment) (current : AudioSegment),
      List.Chain' (fun x y => g < y.start_time_seconds - x.end_time_seconds)
        (current :: rest) →
      mergeLoop content g current rest = some (current :: rest) := by
  intro rest
  induction rest with
  | nil => intro current _; simp [mergeLoop]
  | cons next rest ih =>
      intro current hchain
      have hgap : g < next.start_time_seconds - current.end_time_seconds :=
        List.chain'_cons.mp hchain |>.1
      have htail : List.Chain'
          (fun x y => g < y.start_time_seconds - x.end_time_seconds)
          (next :: rest) := List.chain'_cons.mp hchain |>.2
      simp only [mergeLoop]
      rw [if_neg (not_le.mpr hgap), ih next htail]

/-- Transfer of sortedness to the output of a successful walk. -/
lemma mergeLoop_out_pairwise {content : List Int} {g : ℚ}
    {first : AudioSegment} {rest out : List AudioSegment}
    (hpw : List.Pairwise (fun a b => segLE a b = true) (first :: rest))
    (h : mergeLoop content g first rest = some out) :
    List.Pairwise (fun a b => segLE a b = true) out := by
  obtain ⟨_, hsub, _⟩ := mergeLoop_spec content g rest first out h
  have h1 : ((first :: rest).map (fun s => s.start_time_seconds)).Pairwise (· ≤ ·) :=
    List.pairwise_map.mpr (hpw.imp (by
      intro a b hab
      simpa [segLE, decide_eq_true_eq] using hab))
  have h2 : (out.map (fun s => s.start_time_seconds)).Pairwise (· ≤ ·) :=
    h1.sublist hsub
  have h3 := List.pairwise_map.mp h2
  exact h3.imp (by
    intro a b hab
    simpa [segLE, decide_eq_true_eq] using hab)

/-- Evaluation of the merger on a sorted two-element input. -/
lemma merge_two_sorted_eval (a b : AudioSegment) (content : List Int) (g : ℚ)
    (hord : a.start_time_seconds ≤ b.start_time_seconds)
    (ha : 0 ≤ a.start_sample) (hab : a.start_sample ≤ b.end_sample)
    (hbl : b.end_sample ≤ (content.length : Int)) (hb64 : b.end_sample < 2 ^ 63) :
    (b.start_time_seconds - a.end_time_seconds ≤ g →
      merge_close_segments [a, b] content g = some
        [{ start_sample := a.start_sample
           end_sample := b.end_sample
           start_time_seconds := a.start_time_seconds
           end_time_seconds := b.end_time_seconds
           audio_data := (content.drop a.start_sample.toNat).take
             (b.end_sample.toNat - a.start_sample.toNat)
           audio_base64 := samples_to_wav_base64
             ((content.drop a.start_sample.toNat).take
               (b.end_sample.toNat - a.start_sample.toNat)) }]) ∧
    (¬ (b.start_time_seconds - a.end_time_seconds ≤ g) →
      merge_close_segments [a, b] content g = some [a, b]) := by
  have hsort : ([a, b] : List AudioSegment).mergeSort segLE = [a, b] := by
    apply List.mergeSort_of_sorted
    refine List.pairwise_cons.mpr ⟨?_, by simp⟩
    intro y hy
    rw [List.mem_singleton] at hy
    subst hy
    simp only [segLE, decide_eq_true_eq]
    exact hord
  have hmm : mkMergedSegment a b content = some
      { start_sample := a.start_sample
        end_sample := b.end_sample
        start_time_seconds := a.start_time_seconds
        end_time_seconds := b.end_time_seconds
        audio_data := (content.drop a.start_sample.toNat).take
          (b.end_sample.toNat - a.start_sample.toNat)
        audio_base64 := samples_to_wav_base64
          ((content.drop a.start_sample.toNat).take
            (b.end_sample.toNat - a.start_sample.toNat)) } := by
    simp only [mkMergedSegment]
    have h1 : min a.start_sample (content.length : Int) = a.start_sample :=
      min_eq_left (le_trans hab hbl)
    have h2 : i64ToUsize a.start_sample = a.start_sample.toNat := by
      unfold i64ToUsize
      rw [Int.emod_eq_of_lt ha (by omega)]
    have h3 : i64ToUsize b.end_sample = b.end_sample.toNat := by
      unfold i64ToUsize
      rw [Int.emod_eq_of_lt (le_trans ha hab) (by omega)]
    have h4 : min b.end_sample.toNat content.length = b.end_sample.toNat := by
      apply min_eq_left
      omega
    rw [h1, h2, h3, h4]
    have hcond : a.start_sample.toNat ≤ b.end_sample.toNat ∧
        b.end_sample.toNat ≤ content.length := by omega
    have hsl : sliceRange content a.start_sample.toNat b.end_sample.toNat =
        some ((content.drop a.start_sample.toNat).take
          (b.end_sample.toNat - a.start_sample.toNat)) := by
      simp only [sliceRange]
      rw [if_pos hcond]
    rw [hsl]
  constructor
  · intro hgap
    unfold merge_close_segments
    rw [hsort]
    dsimp only
    simp only [mergeLoop]
    rw [if_pos hgap, hmm]
  · intro hgap
    unfold merge_close_segments
    rw [hsort]
    dsimp only
    simp only [mergeLoop]
    rw [if_neg hgap]

/-! ## C6: merge idempotence -/

/-- C6: whenever the merger succeeds, re-running it on its own output with the
same buffer and the same `max_gap_seconds` returns that output unchanged,
segment for segment (sample bounds, time bounds, audio data and encoded
container included, since the segments are compared whole). -/
theorem merge_idempotent (segments : List AudioSegment) (content : List Int)
    (g : ℚ) (out : List AudioSegment)
    (h : merge_close_segments segments content g = some out) :
    merge_close_segments out content g = some out := by
  unfold merge_close_segments at h
  cases hs : segments.mergeSort segLE with
  | nil =>
      rw [hs] at h
      dsimp only at h
      rw [Option.some_inj] at h
      subst h
      unfold merge_close_segments
      rw [List.mergeSort_nil]
  | cons first rest =>
      rw [hs] at h
      dsimp only at h
      have hpw : List.Pairwise (fun a b => segLE a b = true) (first :: rest) := by
        rw [← hs]
        exact List.sorted_mergeSort segLE_trans segLE_total segments
      obtain ⟨⟨f, tail, hout, hfst⟩, hsub, hchain⟩ :=
        mergeLoop_spec content g rest first out h
      have hpwout : List.Pairwise (fun a b => segLE a b = true) out :=
        mergeLoop_out_pairwise hpw h
      unfold merge_close_segments
      rw [List.mergeSort_of_sorted hpwout, hout]
      dsimp only
      rw [mergeLoop_of_gaps content g tail f (hout ▸ hchain), ← hout]

/-- C6 witness: idempotence applied to a concrete run in which the two input
segments merge into one; re-merging the singleton output returns it unchanged. -/
theorem merge_idempotent_witness :
    merge_close_segments
      [{ start_sample := (mkAssembledSegment 0 1 [5]).start_sample
         end_sample := (mkAssembledSegment 1 2 [6]).end_sample
         start_time_seconds := (mkAssembledSegment 0 1 [5]).start_time_seconds
         end_time_seconds := (mkAssembledSegment 1 2 [6]).end_time_seconds
         audio_data := (([5, 6] : List Int).drop
           (mkAssembledSegment 0 1 [5]).start_sample.toNat).take
           ((mkAssembledSegment 1 2 [6]).end_sample.toNat -
             (mkAssembledSegment 0 1 [5]).start_sample.toNat)
         audio_base64 := samples_to_wav_base64
           ((([5, 6] : List Int).drop
             (mkAssembledSegment 0 1 [5]).start_sample.toNat).take
             ((mkAssembledSegment 1 2 [6]).end_sample.toNat -
               (mkAssembledSegment 0 1 [5]).start_sample.toNat)) }]
      [5, 6] 10 = some
      [{ start_sample := (mkAssembledSegment 0 1 [5]).start_sample
         end_sample := (mkAssembledSegment 1 2 [6]).end_sample
         start_time_seconds := (mkAssembledSegment 0 1 [5]).start_time_seconds
         end_time_seconds := (mkAssembledSegment 1 2 [6]).end_time_seconds
         audio_data := (([5, 6] : List Int).drop
           (mkAssembledSegment 0 1 [5]).start_sample.toNat).take
           ((mkAssembledSegment 1 2 [6]).end_sample.toNat -
             (mkAssembledSegment 0 1 [5]).start_sample.toNat)
         audio_base64 := samples_to_wav_base64
           ((([5, 6] : List Int).drop
             (mkAssembledSegment 0 1 [5]).start_sample.toNat).take
             ((mkAssembledSegment 1 2 [6]).end_sample.toNat -
               (mkAssembledSegment 0 1 [5]).start_sample.toNat)) }] :=
  merge_idempotent [mkAssembledSegment 0 1 [5], mkAssembledSegment 1 2 [6]] [5, 6] 10 _
    ((merge_two_sorted_eval (mkAssembledSegment 0 1 [5]) (mkAssembledSegment 1 2 [6])
      [5, 6] 10
      (by norm_num [mkAssembledSegment])
      (by norm_num [mkAssembledSegment])
      (by norm_num [mkAssembledSegment])
      (by norm_num [mkAssembledSegment])
      (by norm_num [mkAssembledSegment])).1
      (by norm_num [mkAssembledSegment]))

/-! ## C5: merger output invariants -/

/-- Consistency of a segment's time and sample bounds: sample bounds are
ordered, within the `i64` range the pipeline produces, and the time fields
are the sample indices divided by the 16 kHz pipeline rate. -/
def SegConsistent (seg : AudioSegment) : Prop :=
  0 ≤ seg.start_sample ∧ seg.start_sample ≤ seg.end_sample ∧
  seg.end_sample < 2 ^ 63 ∧
  seg.start_time_seconds = (seg.start_sample : ℚ) / 16000 ∧
  seg.end_time_seconds = (seg.end_sample : ℚ) / 16000

lemma i64ToUsize_of_nonneg {x : Int} (h0 : 0 ≤ x) (h1 : x < 2 ^ 64) :
    (i64ToUsize x : Int) = x := by
  unfold i64ToUsize
  rw [Int.emod_eq_of_lt h0 h1]
  exact Int.toNat_of_nonneg h0

lemma mkMergedSegment_some (current next : AudioSegment) (content : List Int)
    (h0 : 0 ≤ current.start_sample) (h1 : current.start_sample ≤ next.end_sample)
    (h3 : next.end_sample < 2 ^ 63) :
    ∃ m, mkMergedSegment current next content = some m := by
  simp only [mkMergedSegment]
  have hne0 : 0 ≤ next.end_sample := le_trans h0 h1
  have hEnd : (i64ToUsize next.end_sample : Int) = next.end_sample :=
    i64ToUsize_of_nonneg hne0 (lt_trans h3 (by norm_num))
  have hmin0 : 0 ≤ min current.start_sample (content.length : Int) :=
    le_min h0 (Int.natCast_nonneg _)
  have hminlt : min current.start_sample (content.length : Int) < 2 ^ 64 := by
    calc min current.start_sample (content.length : Int)
        ≤ current.start_sample := min_le_left _ _
      _ ≤ next.end_sample := h1
      _ < 2 ^ 63 := h3
      _ < 2 ^ 64 := by norm_num
  have hStart : (i64ToUsize (min current.start_sample (content.length : Int)) : Int) =
      min current.start_sample (content.length : Int) :=
    i64ToUsize_of_nonneg hmin0 hminlt
  have hminle1 : min current.start_sample (content.length : Int) ≤ next.end_sample :=
    le_trans (min_le_left _ _) h1
  have hminle2 : min current.start_sample (content.length : Int) ≤ (content.length : Int) :=
    min_le_right _ _
  have hcond : i64ToUsize (min current.start_sample (content.length : Int)) ≤
      min (i64ToUsize next.end_sample) content.length ∧
      min (i64ToUsize next.end_sample) content.length ≤ content.length :=
    ⟨by omega, min_le_right _ _⟩
  have hsl : sliceRange content
      (i64ToUsize (min current.start_sample (content.length : Int)))
      (min (i64ToUsize next.end_sample) content.length) =
      some ((content.drop
        (i64ToUsize (min current.start_sample (content.length : Int)))).take
        (min (i64ToUsize next.end_sample) content.length -
          i64ToUsize (min current.start_sample (content.length : Int)))) := by
    simp only [sliceRange]
    rw [if_pos hcond]
  rw [hsl]
  exact ⟨_, rfl⟩

lemma segLE_start_sample {a b : AudioSegment} (ha : SegConsistent a)
    (hb : SegConsistent b) (h : segLE a b = true) :
    a.start_sample ≤ b.start_sample := by
  rw [segLE, decide_eq_true_eq] at h
  rw [ha.2.2.2.1, hb.2.2.2.1] at h
  have := (div_le_div_iff_of_pos_right (by norm_num : (0 : ℚ) < 16000)).mp h
  exact_mod_cast this

/-- A successful walk on consistent, sorted segments: the walk cannot panic,
and every output segment's sample range is a superset of at least one input
segment's range. -/
lemma mergeLoop_consistent_spec (content : List Int) (g : ℚ) :
    ∀ (rest : List AudioSegment) (current : AudioSegment),
      SegConsistent current → (∀ s ∈ rest, SegConsistent s) →
      List.Pairwise (fun a b => segLE a b = true) (current :: rest) →
      ∃ out, mergeLoop content g current rest = some out ∧
        ∀ o ∈ out, ∃ i, i ∈ current :: rest ∧
          o.start_sample ≤ i.start_sample ∧ i.end_sample ≤ o.end_sample := by
  intro rest
  induction rest with
  | nil =>
      intro current _ _ _
      refine ⟨[current], by simp [mergeLoop], ?_⟩
      intro o ho
      rw [List.mem_singleton] at ho
      subst ho
      exact ⟨o, by simp, le_refl _, le_refl _⟩
  | cons next rest ih =>
      intro current hc hrest hpw
      obtain ⟨hhead, htailpw⟩ := List.pairwise_cons.mp hpw
      obtain ⟨hnexthead, hrestpw⟩ := List.pairwise_cons.mp htailpw
      have hnext : SegConsistent next := hrest next (by simp)
      have hcs_ns : current.start_sample ≤ next.start_sample :=
        segLE_start_sample hc hnext (hhead next (by simp))
      by_cases hgap : next.start_time_seconds - current.end_time_seconds ≤ g
      · obtain ⟨m, hm⟩ := mkMergedSegment_some current next content hc.1
          (le_trans hcs_ns hnext.2.1) hnext.2.2.1
        obtain ⟨hms, hme, hmst, hmet⟩ := mkMergedSegment_fields hm
        have hmcons : SegConsistent m := by
          refine ⟨?_, ?_, ?_, ?_, ?_⟩
          · rw [hms]; exact hc.1
          · rw [hms, hme]; exact le_trans hcs_ns hnext.2.1
          · rw [hme]; exact hnext.2.2.1
          · rw [hmst, hms]; exact hc.2.2.2.1
          · rw [hmet, hme]; exact hnext.2.2.2.2
        have hpw' : List.Pairwise (fun a b => segLE a b = true) (m :: rest) := by
          refine List.pairwise_cons.mpr ⟨fun b hb => ?_, hrestpw⟩
          have := hhead b (by simp [hb])
          rw [segLE, decide_eq_true_eq] at this ⊢
          rw [hmst]
          exact this
        obtain ⟨out, hout, hsup⟩ := ih m hmcons
          (fun s hsin => hrest s (by simp [hsin])) hpw'
        refine ⟨out, ?_, ?_⟩
        · simp only [mergeLoop]
          rw [if_pos hgap, hm]
          exact hout
        · intro o ho
          obtain ⟨i, hi, hio1, hio2⟩ := hsup o ho
          rw [List.mem_cons] at hi
          rcases hi with hi | hi
          · subst hi
            rw [hms] at hio1
            rw [hme] at hio2
            exact ⟨next, by simp, le_trans hio1 hcs_ns, hio2⟩
          · exact ⟨i, by simp [hi], hio1, hio2⟩
      · obtain ⟨out, hout, hsup⟩ := ih next hnext
          (fun s hsin => hrest s (by simp [hsin])) htailpw
        refine ⟨current :: out, ?_, ?_⟩
        · simp only [mergeLoop]
          rw [if_neg hgap, hout]
        · intro o ho
          rw [List.mem_cons] at ho
          rcases ho with ho | ho
          · subst ho
            exact ⟨o, by simp, le_refl _, le_refl _⟩
          · obtain ⟨i, hi, h1, h2⟩ := hsup o ho
            exact ⟨i, by simp [List.mem_cons.mp hi], h1, h2⟩

/-- C5: on consistent segments and a nonnegative gap threshold, the merger
succeeds, its output is non-overlapping and time-ordered (each adjacent pair
satisfies `a.end_time_seconds <= b.start_time_seconds`), and every output
segment's sample range `[start_sample, end_sample)` contains at least one
input segment's range. -/
theorem merge_output_invariants (segments : List AudioSegment) (content : List Int)
    (g : ℚ) (hg : 0 ≤ g) (hcons : ∀ s ∈ segments, SegConsistent s) :
    ∃ out, merge_close_segments segments content g = some out ∧
      List.Chain' (fun a b => a.end_time_seconds ≤ b.start_time_seconds) out ∧
      ∀ o ∈ out, ∃ i, i ∈ segments ∧
        o.start_sample ≤ i.start_sample ∧ i.end_sample ≤ o.end_sample := by
  cases hs : segments.mergeSort segLE with
  | nil =>
      have hnil : segments = [] := by
        have hp := List.mergeSort_perm segments segLE
        rw [hs] at hp
        exact List.Perm.eq_nil hp.symm
      subst hnil
      refine ⟨[], ?_, by simp, by simp⟩
      unfold merge_close_segments
      rw [List.mergeSort_nil]
  | cons first rest =>
      have hpw : List.Pairwise (fun a b => segLE a b = true) (first :: rest) := by
        rw [← hs]
        exact List.sorted_mergeSort segLE_trans segLE_total segments
      have hmem : ∀ s, s ∈ first :: rest → s ∈ segments := by
        intro s hsin
        have hms : s ∈ segments.mergeSort segLE := by rw [hs]; exact hsin
        exact List.mem_mergeSort.mp hms
      obtain ⟨out, hout, hsup⟩ := mergeLoop_consistent_spec content g rest first
        (hcons first (hmem first (by simp)))
        (fun s hsin => hcons s (hmem s (by simp [hsin]))) hpw
      obtain ⟨_, _, hchain⟩ := mergeLoop_spec content g rest first out hout
      refine ⟨out, ?_, ?_, ?_⟩
      · unfold merge_close_segments
        rw [hs]
        exact hout
      · exact hchain.imp (fun a b hab => by linarith)
      · intro o ho
        obtain ⟨i, hi, h1, h2⟩ := hsup o ho
        exact ⟨i, hmem i hi, h1, h2⟩

/-- C5 witness: the invariants applied to one concrete consistent segment over
the buffer `[5, 6]` with threshold 0. -/
theorem merge_output_invariants_witness :
    ∃ out, merge_close_segments [mkAssembledSegment 0 2 [5, 6]] [5, 6] 0 = some out ∧
      List.Chain' (fun a b => a.end_time_seconds ≤ b.start_time_seconds) out ∧
      ∀ o ∈ out, ∃ i, i ∈ [mkAssembledSegment 0 2 [5, 6]] ∧
        o.start_sample ≤ i.start_sample ∧ i.end_sample ≤ o.end_sample :=
  merge_output_invariants [mkAssembledSegment 0 2 [5, 6]] [5, 6] 0 le_rfl (by
    intro s hs
    rw [List.mem_singleton] at hs
    subst hs
    refine ⟨by norm_num [mkAssembledSegment], by norm_num [mkAssembledSegment],
      by norm_num [mkAssembledSegment], by norm_num [mkAssembledSegment],
      by norm_num [mkAssembledSegment]⟩)

/-! ## C2: the pairwise merge rule -/

/-- C2: for a time-ordered pair `(a, b)` with in-range sample bounds, the
merger merges the two segments exactly when
`b.start_time_seconds - a.end_time_seconds <= max_gap_seconds` (inclusively):
then the single output spans `a.start_sample .. b.end_sample` with its samples
re-sliced from the buffer over that full range (gap audio included) and its
container re-encoded; on a strictly larger gap both segments pass through
unchanged. -/
theorem merge_pair_spec (a b : AudioSegment) (content : List Int) (g : ℚ)
    (hord : a.start_time_seconds ≤ b.start_time_seconds)
    (ha : 0 ≤ a.start_sample) (hab : a.start_sample ≤ b.end_sample)
    (hbl : b.end_sample ≤ (content.length : Int)) (hb64 : b.end_sample < 2 ^ 63) :
    (b.start_time_seconds - a.end_time_seconds ≤ g →
      merge_close_segments [a, b] content g = some
        [{ start_sample := a.start_sample
           end_sample := b.end_sample
           start_time_seconds := a.start_time_seconds
           end_time_seconds := b.end_time_seconds
           audio_data := (content.drop a.start_sample.toNat).take
             (b.end_sample.toNat - a.start_sample.toNat)
           audio_base64 := samples_to_wav_base64
             ((content.drop a.start_sample.toNat).take
               (b.end_sample.toNat - a.start_sample.toNat)) }]) ∧
    (¬ (b.start_time_seconds - a.end_time_seconds ≤ g) →
      merge_close_segments [a, b] content g = some [a, b]) :=
  merge_two_sorted_eval a b content g hord ha hab hbl hb64

/-- C2 witness: a concrete merging pair (gap exactly equal to the threshold
merges) over the buffer `[5, 6]`. -/
theorem merge_pair_spec_witness :
    merge_close_segments [mkAssembledSegment 0 1 [5], mkAssembledSegment 1 2 [6]]
      [5, 6] 0 = some
        [{ start_sample := (mkAssembledSegment 0 1 [5]).start_sample
           end_sample := (mkAssembledSegment 1 2 [6]).end_sample
           start_time_seconds := (mkAssembledSegment 0 1 [5]).start_time_seconds
           end_time_seconds := (mkAssembledSegment 1 2 [6]).end_time_seconds
           audio_data := (([5, 6] : List Int).drop
             (mkAssembledSegment 0 1 [5]).start_sample.toNat).take
             ((mkAssembledSegment 1 2 [6]).end_sample.toNat -
               (mkAssembledSegment 0 1 [5]).start_sample.toNat)
           audio_base64 := samples_to_wav_base64
             ((([5, 6] : List Int).drop
               (mkAssembledSegment 0 1 [5]).start_sample.toNat).take
               ((mkAssembledSegment 1 2 [6]).end_sample.toNat -
                 (mkAssembledSegment 0 1 [5]).start_sample.toNat)) }] :=
  (merge_pair_spec (mkAssembledSegment 0 1 [5]) (mkAssembledSegment 1 2 [6])
    [5, 6] 0
    (by norm_num [mkAssembledSegment])
    (by norm_num [mkAssembledSegment])
    (by norm_num [mkAssembledSegment])
    (by norm_num [mkAssembledSegment])
    (by norm_num [mkAssembledSegment])).1
    (by norm_num [mkAssembledSegment])

/-! ## C8: concrete pipeline scenario 1 -/

lemma scenario1_assemble (content : List Int) (h : content.length = 2048) :
    assembleSegments
      [LabeledAudio.speech, LabeledAudio.speech, LabeledAudio.nonSpeech,
       LabeledAudio.speech] content 512 = some
        [mkAssembledSegment 0 1024 (content.take 1024),
         mkAssembledSegment 1536 2048 (content.drop 1536)] := by
  unfold assembleSegments
  simp only [assembleLoop]
  norm_num [sliceRange, h]
  intro heq
  rw [heq] at h
  simp at h

/-- C8: on any 2048-sample buffer at 16 kHz with `chunk_size = 512`, the label
stream `[Speech, Speech, NonSpeech, Speech]` assembles into exactly the raw
segments `[0, 1024)` and `[1536, 2048)`; the gap
`(1536 - 1024)/16000 = 0.032 s` is at most `1.5`, so the merger returns
exactly one segment spanning `[0, 2048)`. -/
theorem pipeline_scenario1 (content : List Int) (h : content.length = 2048) :
    ∃ segs, assembleSegments
        [LabeledAudio.speech, LabeledAudio.speech, LabeledAudio.nonSpeech,
         LabeledAudio.speech] content 512 = some segs ∧
      segs.map (fun s => (s.start_sample, s.end_sample)) = [(0, 1024), (1536, 2048)] ∧
      segs.map (fun s => (s.start_time_seconds, s.end_time_seconds)) =
        [(0, 1024 / 16000), (1536 / 16000, 2048 / 16000)] ∧
      ((1536 - 1024 : ℚ) / 16000 ≤ 3 / 2) ∧
      ∃ merged, merge_close_segments segs content (3 / 2) = some merged ∧
        merged.map (fun s => (s.start_sample, s.end_sample)) = [(0, 2048)] := by
  refine ⟨[mkAssembledSegment 0 1024 (content.take 1024),
           mkAssembledSegment 1536 2048 (content.drop 1536)],
    scenario1_assemble content h, by norm_num [mkAssembledSegment],
    by norm_num [mkAssembledSegment], by norm_num, ?_⟩
  have hmerge := (merge_two_sorted_eval (mkAssembledSegment 0 1024 (content.take 1024))
    (mkAssembledSegment 1536 2048 (content.drop 1536)) content (3 / 2)
    (by norm_num [mkAssembledSegment])
    (by norm_num [mkAssembledSegment])
    (by norm_num [mkAssembledSegment])
    (by norm_num [mkAssembledSegment, h])
    (by norm_num [mkAssembledSegment])).1 (by norm_num [mkAssembledSegment])
  refine ⟨_, hmerge, ?_⟩
  norm_num [mkAssembledSegment]

/-- C8 witness: the scenario applied to the concrete buffer of 2048 unit
samples. -/
theorem pipeline_scenario1_witness :
    ∃ segs, assembleSegments
        [LabeledAudio.speech, LabeledAudio.speech, LabeledAudio.nonSpeech,
         LabeledAudio.speech] (List.replicate 2048 (1 : Int)) 512 = some segs ∧
      segs.map (fun s => (s.start_sample, s.end_sample)) = [(0, 1024), (1536, 2048)] ∧
      segs.map (fun s => (s.start_time_seconds, s.end_time_seconds)) =
        [(0, 1024 / 16000), (1536 / 16000, 2048 / 16000)] ∧
      ((1536 - 1024 : ℚ) / 16000 ≤ 3 / 2) ∧
      ∃ merged, merge_close_segments segs (List.replicate 2048 (1 : Int)) (3 / 2) =
          some merged ∧
        merged.map (fun s => (s.start_sample, s.end_sample)) = [(0, 2048)] :=
  pipeline_scenario1 (List.replicate 2048 (1 : Int)) (by rw [List.length_replicate])

end Transcriber